import Mathlib

/-!
The events-saver service: batch accumulation and flush worker, request body
splitting.

A shallow embedding of `src/clickhouse.go` (`batchInserter`, `insertBatch`,
`prepare`) and of `readBody` from `src/main.go`.

The flush worker is an endless `for { select { ... } }` loop.  It is embedded
as a step function over the outcomes of the `select`: each input is either the
timer channel firing or a record arriving on `insertCh`, and carries the
answers the ClickHouse driver gives to the calls made while handling it
(`batch.Append`, `batch.Send`, `conn.PrepareBatch`).  Every call the worker
makes is recorded, in order, in a trace.
-/

namespace EventsSaver

/-! Data model -/

/-- A Go `error` value, identified by its message. -/
abbrev Err := String

/-- The `Event` struct of `main.go`.  Times are Unix seconds, the UUID is its
128-bit number, the IP is its byte list, `int32` fields are integers.  The Go
field `Event` is `EventName` here, as a structure cannot have a field of its
own name. -/
structure Event where
  ClientTime : Int
  DeviceID : Nat
  DeviceOs : String
  Session : String
  Sequence : Int
  EventName : String
  ParamInt : Int
  ParamStr : String
  IP : List Nat
  ServerTime : Int
  deriving DecidableEq, Repr

/-- One row handed to `batch.Append`: the ten arguments in the order in which
`insertBatch` passes them (the column order of the `events` table). -/
structure Row where
  client_time : Int
  server_time : Int
  ip : List Nat
  device_id : Nat
  device_os : String
  session : String
  sequence : Int
  event : String
  param_int : Int
  param_str : String
  deriving DecidableEq, Repr

/-- The argument list of the `batch.Append` call in `insertBatch`. -/
def Event.toRow (e : Event) : Row :=
  { client_time := e.ClientTime
    server_time := e.ServerTime
    ip := e.IP
    device_id := e.DeviceID
    device_os := e.DeviceOs
    session := e.Session
    sequence := e.Sequence
    event := e.EventName
    param_int := e.ParamInt
    param_str := e.ParamStr }

/-- A `driver.Batch`: the handle the connection gave out (the number of
batches it had prepared before) and the rows appended so far. -/
structure Batch where
  handle : Nat
  rows : List Row
  deriving DecidableEq, Repr

/-- The configuration fields of `batchInserter` (`conn` and `insertCh` are the
environment and are represented by the inputs of the worker).  `batchSize` is a
Go `int`, `batchTTL` a `time.Duration` in nanoseconds. -/
structure batchInserter where
  numberOfWorkers : Int
  batchSize : Int
  batchTTL : Int
  insertChCap : Nat
  deriving DecidableEq, Repr

/-- The values set by `NewBatchInserter`. -/
def NewBatchInserter : batchInserter :=
  { batchSize := 100000
    insertChCap := 10000
    batchTTL := 300 * 1000000000
    numberOfWorkers := 2 }

/-- Largest value of a Go `int` on a 64-bit platform. -/
def maxInt : Int := 2 ^ 63 - 1

/-- Two's-complement wrap-around of a 64-bit Go `int`. -/
def wrapInt (x : Int) : Int := (x + 2 ^ 63) % 2 ^ 64 - 2 ^ 63

deriving instance DecidableEq for Except

/-- Everything the worker does that is visible outside it, in program order. -/
inductive Effect where
  /-- Call of `c.conn.PrepareBatch(...)`, with the handle obtained or the error. -/
  | prepareBatch (res : Except Err Nat)
  /-- Call of `log.Printf("failed to prepare batch due to: %s", err)` in `prepare`. -/
  | logPrepare (err : Err)
  /-- Call of `time.NewTimer(d)`. -/
  | newTimer (d : Int)
  /-- A receive from `timer.C`. -/
  | timerFired
  /-- A receive of an event from `c.insertCh`. -/
  | recv (event : Event)
  /-- Call of `batch.Append(...)` on the batch with this handle, and its result. -/
  | append (handle : Nat) (row : Row) (err : Option Err)
  /-- Call of `batch.Send()` on the batch with this handle holding these rows, and its result. -/
  | send (handle : Nat) (rows : List Row) (err : Option Err)
  /-- Call of `log.Println(err)`. -/
  | logErr (err : Err)
  /-- Call of `timer.Reset(d)`. -/
  | timerReset (d : Int)
  deriving DecidableEq, Repr

/-- How the worker goroutine stands: still in its loop, returned with an
error, or stopped by a run-time panic (a method call on a nil `driver.Batch`). -/
inductive Status where
  | running
  | returned (err : Err)
  | panicked
  deriving DecidableEq, Repr

/-- The local variables of `insertBatch` (`batch`, `counter`, `timer`), the
number of batches the connection has handed out, the trace, and the status. -/
structure Worker where
  batch : Option Batch
  counter : Int
  timer : Int
  prepared : Nat
  trace : List Effect
  status : Status
  deriving DecidableEq, Repr

/-- The two results of `prepare`, the connection counter after the call and
the effects of the call. -/
structure Prepared where
  batch : Option Batch
  err : Option Err
  prepared : Nat
  effects : List Effect
  deriving DecidableEq, Repr

/-- One outcome of the `select` in `insertBatch`, with the answers of the
driver to the calls that handling it may make (`none` is a nil error). -/
inductive Select where
  /-- The `case <-timer.C`; results of `batch.Send` and of `PrepareBatch`. -/
  | timerC (send : Option Err) (prep : Option Err)
  /-- The `case event := <-c.insertCh`; results of `batch.Append`, `batch.Send`
  and `PrepareBatch`. -/
  | insertCh (event : Event) (app : Option Err) (send : Option Err) (prep : Option Err)
  deriving DecidableEq, Repr

/-! The code -/

/-- The method `batchInserter.prepare`: on error log and return `(nil, err)`, otherwise
return the new, empty batch. -/
def prepare (prepared : Nat) (res : Option Err) : Prepared :=
  match res with
  | some err =>
    { batch := none, err := some err, prepared := prepared
      effects := [.prepareBatch (.error err), .logPrepare err] }
  | none =>
    { batch := some { handle := prepared, rows := [] }, err := none
      prepared := prepared + 1
      effects := [.prepareBatch (.ok prepared)] }

/-- The statements of `insertBatch` before the loop. -/
def start (c : batchInserter) (prep : Option Err) : Worker :=
  let p := prepare 0 prep
  { batch := p.batch
    counter := 0
    timer := c.batchTTL
    prepared := p.prepared
    trace := p.effects ++ [.newTimer c.batchTTL]
    status := .running }

/-- The `case <-timer.C` branch. -/
def onTimer (c : batchInserter) (w : Worker) (send prep : Option Err) : Worker :=
  let tr := w.trace ++ [.timerFired]
  match w.batch with
  | none => { w with trace := tr, status := .panicked }
  | some b =>
    match send with
    | some err =>
      { w with trace := tr ++ [.send b.handle b.rows (some err), .logErr err]
               status := .returned err }
    | none =>
      let p := prepare w.prepared prep
      { w with batch := p.batch
               timer := c.batchTTL
               prepared := p.prepared
               trace := tr ++ [.send b.handle b.rows none] ++ p.effects
                          ++ [.timerReset c.batchTTL] }

/-- The `case event := <-c.insertCh` branch. -/
def onEvent (c : batchInserter) (w : Worker) (event : Event)
    (app send prep : Option Err) : Worker :=
  let tr := w.trace ++ [.recv event]
  match w.batch with
  | none => { w with trace := tr, status := .panicked }
  | some b =>
    match app with
    | some err =>
      { w with trace := tr ++ [.append b.handle event.toRow (some err)]
               status := .returned err }
    | none =>
      let b1 : Batch := { b with rows := b.rows ++ [event.toRow] }
      let tr1 := tr ++ [.append b.handle event.toRow none]
      let counter := wrapInt (w.counter + 1)
      if counter = c.batchSize then
        match send with
        | some err =>
          { w with batch := some b1
                   counter := 0
                   trace := tr1 ++ [.send b1.handle b1.rows (some err)]
                   status := .returned err }
        | none =>
          let p := prepare w.prepared prep
          { w with batch := p.batch
                   counter := 0
                   timer := c.batchTTL
                   prepared := p.prepared
                   trace := tr1 ++ [.send b1.handle b1.rows none] ++ p.effects
                              ++ [.timerReset c.batchTTL] }
      else
        { w with batch := some b1, counter := counter, trace := tr1 }

/-- One iteration of the `for { select { ... } }` loop.  A worker that has
returned or panicked does nothing more. -/
def step (c : batchInserter) (w : Worker) (i : Select) : Worker :=
  match w.status with
  | .running =>
    match i with
    | .timerC send prep => onTimer c w send prep
    | .insertCh event app send prep => onEvent c w event app send prep
  | _ => w

/-- The method `batchInserter.insertBatch` run on a finite sequence of `select` outcomes;
`prep` is the result of the first `PrepareBatch`. -/
def insertBatch (c : batchInserter) (prep : Option Err) (inputs : List Select) : Worker :=
  inputs.foldl (step c) (start c prep)

/-! Observations on a trace -/

/-- The `batch.Send` calls of a trace, in order: handle and rows sent. -/
def commits (tr : List Effect) : List (Nat × List Row) :=
  tr.filterMap fun e =>
    match e with
    | .send h rows _ => some (h, rows)
    | _ => none

/-- The row lists of the `batch.Send` calls, in commit order. -/
def committed (tr : List Effect) : List (List Row) :=
  (commits tr).map Prod.snd

/-- The handles on which `batch.Send` was called, in order. -/
def sentHandles (tr : List Effect) : List Nat :=
  (commits tr).map Prod.fst

/-- The events received from `insertCh`, in order. -/
def dequeued (tr : List Effect) : List Event :=
  tr.filterMap fun e =>
    match e with
    | .recv ev => some ev
    | _ => none

/-- The rows passed to `batch.Append`, in order. -/
def appended (tr : List Effect) : List Row :=
  tr.filterMap fun e =>
    match e with
    | .append _ row _ => some row
    | _ => none

/-- The errors written to the log, by `log.Println` in `insertBatch` or by
`log.Printf` in `prepare`. -/
def logged (tr : List Effect) : List Err :=
  tr.filterMap fun e =>
    match e with
    | .logErr err => some err
    | .logPrepare err => some err
    | _ => none

/-- A call on the sink that creates or commits a batch handle. -/
inductive SinkCall where
  | prepared (handle : Nat)
  | sent (handle : Nat)
  deriving DecidableEq, Repr

/-- The successful `PrepareBatch` calls and the `batch.Send` calls of a trace,
in order. -/
def sinkCalls (tr : List Effect) : List SinkCall :=
  tr.filterMap fun e =>
    match e with
    | .prepareBatch (.ok h) => some (.prepared h)
    | .send h _ _ => some (.sent h)
    | _ => none

/-- The sequence prepare 0, send 0, prepare 1, send 1, ..., send (n-1). -/
def alternating (n : Nat) : List SinkCall :=
  (List.range n).flatMap fun h => [.prepared h, .sent h]

/-! Inputs without sink errors -/

/-- The timer fires and the sink answers every call without error. -/
def okTick : Select := .timerC none none

/-- A record arrives and the sink answers every call without error. -/
def okEvent (event : Event) : Select := .insertCh event none none none

/-- No driver call made for this input fails. -/
def Select.noSinkError : Select → Bool
  | .timerC send prep => send.isNone && prep.isNone
  | .insertCh _ app send prep => app.isNone && send.isNone && prep.isNone

/-- The records delivered by a sequence of inputs, in order. -/
def records (inputs : List Select) : List Event :=
  inputs.filterMap fun i =>
    match i with
    | .insertCh ev _ _ _ => some ev
    | .timerC _ _ => none

/-- A record that differs from the others only in its sequence number. -/
def record (n : Int) : Event :=
  { ClientTime := 0, DeviceID := 0, DeviceOs := "", Session := "", Sequence := n
    EventName := "", ParamInt := 0, ParamStr := "", IP := [], ServerTime := 0 }

/-- A configuration with the given batch size. -/
def cfg (batchSize : Int) : batchInserter :=
  { NewBatchInserter with batchSize := batchSize }

/-- The effects of receiving and appending each of the events to the batch
with the given handle, with no error. -/
def accTrace (h : Nat) (rs : List Event) : List Effect :=
  rs.flatMap fun e => [.recv e, .append h e.toRow none]

/-- The handles of the `sent` calls of a list of sink calls. -/
def sentOf (l : List SinkCall) : List Nat :=
  l.filterMap fun x =>
    match x with
    | .sent h => some h
    | .prepared _ => none

/-- The sink discipline of a worker: while it runs with a batch, the calls so
far are prepare 0, send 0, ..., prepare h for the handle h of its batch; in
every other state they are such a sequence, ending in a send or a prepare. -/
def SinkInv (w : Worker) : Prop :=
  (w.status = .running →
    ∀ b, w.batch = some b →
      sinkCalls w.trace = alternating b.handle ++ [.prepared b.handle] ∧
      w.prepared = b.handle + 1) ∧
  ∃ n, sinkCalls w.trace = alternating n ∨
    sinkCalls w.trace = alternating n ++ [.prepared n]

/-- What holds of a worker that has handled the records `rs` with no sink
error: it runs, owns a batch, and the committed rows followed by the pending
rows are the rows of `rs`, each received and appended once, in order. -/
def OrderInv (w : Worker) (rs : List Event) : Prop :=
  w.status = .running ∧
  ∃ b, w.batch = some b ∧
    (committed w.trace).flatten ++ b.rows = rs.map Event.toRow ∧
    dequeued w.trace = rs ∧
    appended w.trace = rs.map Event.toRow

/-! readBody (main.go) -/

/-- An `error` returned by a read: `io.EOF` or any other. -/
inductive IOErr where
  | EOF
  | other (msg : String)
  deriving DecidableEq, Repr

/-- The function `bytes.IndexByte`: the index of the first `c` in `b`, `none` for -1. -/
def IndexByte : List Nat → Nat → Option Nat
  | [], _ => none
  | x :: xs, c => if x = c then some 0 else (IndexByte xs c).map (· + 1)

/-- The results of `bytes.Buffer.ReadBytes` and the unread bytes left in the
buffer; `line = none` is the nil slice. -/
structure ReadResult where
  line : Option (List Nat)
  err : Option IOErr
  rest : List Nat
  deriving DecidableEq, Repr

/-- The method `(*bytes.Buffer).ReadBytes(delim)` on the unread bytes `buf`: the bytes up
to and including the first `delim`; without a `delim`, all the bytes and
`io.EOF`.  The line is a copy made by appending to a nil slice, so it is nil
when there is no byte to copy. -/
def ReadBytes (buf : List Nat) (delim : Nat) : ReadResult :=
  match IndexByte buf delim with
  | none => { line := if buf = [] then none else some buf, err := some .EOF, rest := [] }
  | some i => { line := some (buf.take (i + 1)), err := none, rest := buf.drop (i + 1) }

/-- The `for` loop of `readBody`, with the number of iterations bounded by
`fuel` (`none` when the bound is hit).  `part[:len(part)-1]` is `dropLast`. -/
def readLoop : Nat → List Nat → List (List Nat) → Option (Except IOErr (List (List Nat)))
  | 0, _, _ => none
  | fuel + 1, buf, events =>
    let r := ReadBytes buf 10
    match r.err with
    | some .EOF =>
      match r.line with
      | some part => some (.ok (events ++ [part]))
      | none => some (.ok events)
    | some err => some (.error err)
    | none => readLoop fuel r.rest (events ++ [(r.line.getD []).dropLast])

/-- The function `readBody`: `body` is what `buf.ReadFrom(body)` gives, the bytes of the
request body (as numbers) or the read error.  Every iteration but the last
consumes at least one byte, so `length + 1` iterations are allowed. -/
def readBody (body : Except IOErr (List Nat)) : Option (Except IOErr (List (List Nat))) :=
  match body with
  | .error err => some (.error err)
  | .ok bytes => readLoop (bytes.length + 1) bytes []

/-- The segments of a byte list between newline bytes; a last segment is
listed when it is not empty. -/
def segments : List Nat → List (List Nat)
  | [] => []
  | b :: bs =>
    if b = 10 then [] :: segments bs
    else
      match segments bs with
      | [] => [[b]]
      | l :: ls => (b :: l) :: ls

/-! Basic facts -/

theorem wrapInt_le (x : Int) (h : -2 ^ 63 ≤ x) : wrapInt x ≤ x := by
  unfold wrapInt
  norm_num at h ⊢
  omega

theorem wrapInt_ge (x : Int) : -2 ^ 63 ≤ wrapInt x := by
  unfold wrapInt
  norm_num
  omega

theorem wrapInt_id (x : Int) (h1 : -2 ^ 63 ≤ x) (h2 : x ≤ maxInt) : wrapInt x = x := by
  unfold wrapInt
  unfold maxInt at h2
  norm_num at h1 h2 ⊢
  omega

theorem commits_append (a b : List Effect) : commits (a ++ b) = commits a ++ commits b := by
  simp [commits]

theorem committed_append (a b : List Effect) :
    committed (a ++ b) = committed a ++ committed b := by
  simp [committed, commits_append]

theorem sentHandles_append (a b : List Effect) :
    sentHandles (a ++ b) = sentHandles a ++ sentHandles b := by
  simp [sentHandles, commits_append]

theorem dequeued_append (a b : List Effect) : dequeued (a ++ b) = dequeued a ++ dequeued b := by
  simp [dequeued]

theorem appended_append (a b : List Effect) : appended (a ++ b) = appended a ++ appended b := by
  simp [appended]

theorem logged_append (a b : List Effect) : logged (a ++ b) = logged a ++ logged b := by
  simp [logged]

theorem sinkCalls_append (a b : List Effect) :
    sinkCalls (a ++ b) = sinkCalls a ++ sinkCalls b := by
  simp [sinkCalls]

theorem accTrace_append (h : Nat) (a b : List Event) :
    accTrace h (a ++ b) = accTrace h a ++ accTrace h b := by
  simp [accTrace]

theorem commits_accTrace (h : Nat) (rs : List Event) : commits (accTrace h rs) = [] := by
  induction rs with
  | nil => rfl
  | cons r rs ih =>
    have : accTrace h (r :: rs) = [.recv r, .append h r.toRow none] ++ accTrace h rs := by
      simp [accTrace]
    rw [this, commits_append, ih]
    rfl

theorem insertBatch_snoc (c : batchInserter) (p : Option Err) (xs : List Select) (x : Select) :
    insertBatch c p (xs ++ [x]) = step c (insertBatch c p xs) x := by
  simp [insertBatch, List.foldl_append]

theorem insertBatch_append (c : batchInserter) (p : Option Err) (xs ys : List Select) :
    insertBatch c p (xs ++ ys) = ys.foldl (step c) (insertBatch c p xs) := by
  simp [insertBatch, List.foldl_append]

/-- A worker that is no longer running ignores all further inputs. -/
theorem foldl_step_stopped (c : batchInserter) (w : Worker) (h : w.status ≠ .running)
    (xs : List Select) : xs.foldl (step c) w = w := by
  induction xs with
  | nil => rfl
  | cons x xs ih =>
    have hx : step c w x = w := by
      unfold step
      split
      · next hs => exact absurd hs h
      · rfl
    simp [List.foldl_cons, hx, ih]

/-- Accumulation below the threshold: the state after fewer than `batchSize`
records, all appended without error, from the initial state. -/
theorem accumulate (c : batchInserter) (rs : List Event)
    (hlt : (rs.length : Int) < c.batchSize) :
    ∃ cnt : Int, -2 ^ 63 ≤ cnt ∧ cnt ≤ rs.length ∧
      (c.batchSize ≤ maxInt → cnt = rs.length) ∧
      insertBatch c none (rs.map okEvent) =
        { batch := some ⟨0, rs.map Event.toRow⟩
          counter := cnt
          timer := c.batchTTL
          prepared := 1
          trace := [.prepareBatch (.ok 0), .newTimer c.batchTTL] ++ accTrace 0 rs
          status := .running } := by
  induction rs using List.reverseRecOn with
  | nil =>
    refine ⟨0, by norm_num, by simp, fun _ => by simp, ?_⟩
    simp [insertBatch, start, prepare, accTrace]
  | append_singleton rs r ih =>
    have hlen : ((rs ++ [r]).length : Int) = rs.length + 1 := by simp
    rw [hlen] at hlt
    obtain ⟨cnt, h1, h2, h3, h4⟩ := ih (by omega)
    have hw := wrapInt_le (cnt + 1) (by omega)
    refine ⟨wrapInt (cnt + 1), wrapInt_ge _, by rw [hlen]; omega, ?_, ?_⟩
    · intro hmax
      rw [hlen, wrapInt_id _ (by omega) (by omega), h3 hmax]
    · have hne : wrapInt (cnt + 1) ≠ c.batchSize := by omega
      rw [List.map_append, List.map_singleton, insertBatch_snoc, h4]
      simp [step, okEvent, onEvent, hne, accTrace_append, accTrace]

theorem wrapInt_one : wrapInt 1 = 1 := by
  unfold wrapInt
  norm_num

/-- The state right after exactly `batchSize` records, all appended and
committed without error, from the initial state. -/
theorem full_batch (c : batchInserter) (rs : List Event)
    (hpos : 1 ≤ c.batchSize) (hmax : c.batchSize ≤ maxInt)
    (hlen : (rs.length : Int) = c.batchSize) :
    insertBatch c none (rs.map okEvent) =
      { batch := some ⟨1, []⟩
        counter := 0
        timer := c.batchTTL
        prepared := 2
        trace := [.prepareBatch (.ok 0), .newTimer c.batchTTL] ++ accTrace 0 rs ++
          [.send 0 (rs.map Event.toRow) none, .prepareBatch (.ok 1), .timerReset c.batchTTL]
        status := .running } := by
  rcases List.eq_nil_or_concat rs with hnil | ⟨init, last, hrs⟩
  · subst hnil
    simp at hlen
    omega
  · rw [List.concat_eq_append] at hrs
    subst hrs
    have hl : ((init ++ [last]).length : Int) = init.length + 1 := by simp
    rw [hl] at hlen
    obtain ⟨cnt, _, _, h3, h4⟩ := accumulate c init (by omega)
    have hcnt := h3 hmax
    subst hcnt
    have heq : wrapInt ((init.length : Int) + 1) = c.batchSize := by
      rw [wrapInt_id _ (by omega) (by omega), hlen]
    rw [List.map_append, List.map_singleton, insertBatch_snoc, h4]
    simp [step, okEvent, onEvent, heq, prepare, accTrace_append, accTrace]

/-- C4: fewer than `batchSize` records delivered to a worker in its initial
state, with no deadline firing and no sink error, cause no `batch.Send` call at
all: the trace holds no commit, the worker is still in its loop and all the
records are pending in the first batch. -/
theorem C4_below_threshold_no_commit (c : batchInserter) (rs : List Event)
    (hlt : (rs.length : Int) < c.batchSize) :
    commits (insertBatch c none (rs.map okEvent)).trace = [] ∧
    (insertBatch c none (rs.map okEvent)).status = .running ∧
    (insertBatch c none (rs.map okEvent)).batch = some ⟨0, rs.map Event.toRow⟩ := by
  obtain ⟨cnt, _, _, _, h4⟩ := accumulate c rs hlt
  rw [h4]
  refine ⟨?_, rfl, rfl⟩
  show commits ([.prepareBatch (.ok 0), .newTimer c.batchTTL] ++ accTrace 0 rs) = []
  rw [commits_append, commits_accTrace]
  rfl

/-- Witness of C4: batch size 3 and two records. -/
theorem C4_below_threshold_no_commit_witness :
    commits (insertBatch (cfg 3) none ([record 1, record 2].map okEvent)).trace = [] ∧
    (insertBatch (cfg 3) none ([record 1, record 2].map okEvent)).status = .running ∧
    (insertBatch (cfg 3) none ([record 1, record 2].map okEvent)).batch =
      some ⟨0, [record 1, record 2].map Event.toRow⟩ :=
  C4_below_threshold_no_commit (cfg 3) [record 1, record 2] (by decide)

/-- C1: for a batch size of at least 1 (and, being a Go `int`, at most
`maxInt`), exactly `batchSize` records delivered
to a worker in its initial state, with no deadline firing and no sink error,
give the trace: prepare, new timer, the appends to batch 0 in order, one
`batch.Send` of batch 0 holding exactly those rows in order, a new prepare and
a timer reset; so there is exactly one commit and it comes right after the
last append.  One more record is appended to the next batch (handle 1), on
which no `batch.Send` has been called, and the first commit is unchanged; when
`batchSize` is not 1 nothing else happens and that record stays pending. -/
theorem C1_exact_batch_one_commit (c : batchInserter) (rs : List Event) (r : Event)
    (hpos : 1 ≤ c.batchSize) (hmax : c.batchSize ≤ maxInt)
    (hlen : (rs.length : Int) = c.batchSize) :
    (insertBatch c none (rs.map okEvent)).trace =
      [.prepareBatch (.ok 0), .newTimer c.batchTTL] ++ accTrace 0 rs ++
        [.send 0 (rs.map Event.toRow) none, .prepareBatch (.ok 1), .timerReset c.batchTTL] ∧
    commits (insertBatch c none (rs.map okEvent)).trace = [(0, rs.map Event.toRow)] ∧
    (insertBatch c none (rs.map okEvent)).batch = some ⟨1, []⟩ ∧
    (insertBatch c none (rs.map okEvent)).counter = 0 ∧
    (insertBatch c none (rs.map okEvent)).status = .running ∧
    ∃ rest : List Effect,
      (insertBatch c none ((rs ++ [r]).map okEvent)).trace =
        (insertBatch c none (rs.map okEvent)).trace ++
          [.recv r, .append 1 r.toRow none] ++ rest ∧
      1 ∉ sentHandles ((insertBatch c none (rs.map okEvent)).trace ++
          [.recv r, .append 1 r.toRow none]) ∧
      (c.batchSize ≠ 1 →
        rest = [] ∧
        (insertBatch c none ((rs ++ [r]).map okEvent)).batch = some ⟨1, [r.toRow]⟩ ∧
        (insertBatch c none ((rs ++ [r]).map okEvent)).status = .running ∧
        commits (insertBatch c none ((rs ++ [r]).map okEvent)).trace =
          [(0, rs.map Event.toRow)]) := by
  have hfull := full_batch c rs hpos hmax hlen
  have hcom : commits ([.prepareBatch (.ok 0), .newTimer c.batchTTL] ++ accTrace 0 rs ++
      [.send 0 (rs.map Event.toRow) none, .prepareBatch (.ok 1), .timerReset c.batchTTL]) =
      [(0, rs.map Event.toRow)] := by
    rw [commits_append, commits_append, commits_accTrace]
    rfl
  have hsnoc : insertBatch c none ((rs ++ [r]).map okEvent) =
      step c (insertBatch c none (rs.map okEvent)) (okEvent r) := by
    rw [List.map_append, List.map_singleton, insertBatch_snoc]
  have hsent : 1 ∉ sentHandles ([.prepareBatch (.ok 0), .newTimer c.batchTTL] ++ accTrace 0 rs ++
      [.send 0 (rs.map Event.toRow) none, .prepareBatch (.ok 1), .timerReset c.batchTTL] ++
      [.recv r, .append 1 r.toRow none]) := by
    rw [sentHandles_append]
    unfold sentHandles
    rw [hcom]
    simp [commits]
  rw [hsnoc, hfull]
  refine ⟨rfl, hcom, rfl, rfl, rfl, ?_⟩
  by_cases hb : c.batchSize = 1
  · refine ⟨[.send 1 [r.toRow] none, .prepareBatch (.ok 2), .timerReset c.batchTTL], ?_, hsent, ?_⟩
    · simp [step, okEvent, onEvent, wrapInt_one, hb, prepare]
    · intro h
      exact absurd hb h
  · have hne : ¬ (1 : Int) = c.batchSize := fun h => hb h.symm
    have hst : step c
        { batch := some ⟨1, []⟩
          counter := 0
          timer := c.batchTTL
          prepared := 2
          trace := [.prepareBatch (.ok 0), .newTimer c.batchTTL] ++ accTrace 0 rs ++
            [.send 0 (rs.map Event.toRow) none, .prepareBatch (.ok 1), .timerReset c.batchTTL]
          status := .running } (okEvent r) =
        { batch := some ⟨1, [r.toRow]⟩
          counter := 1
          timer := c.batchTTL
          prepared := 2
          trace := [.prepareBatch (.ok 0), .newTimer c.batchTTL] ++ accTrace 0 rs ++
            [.send 0 (rs.map Event.toRow) none, .prepareBatch (.ok 1), .timerReset c.batchTTL] ++
            [.recv r, .append 1 r.toRow none]
          status := .running } := by
      simp [step, okEvent, onEvent, wrapInt_one, hne]
    rw [hst]
    refine ⟨[], by simp, hsent, fun _ => ⟨rfl, rfl, rfl, ?_⟩⟩
    show commits (_ ++ [.recv r, .append 1 r.toRow none]) = _
    rw [commits_append, hcom]
    rfl

/-- Witness of C1 (scenario A): batch size 3 and records r1, r2, r3, then r4. -/
theorem C1_exact_batch_one_commit_witness :
    commits (insertBatch (cfg 3) none ([record 1, record 2, record 3].map okEvent)).trace =
      [(0, [record 1, record 2, record 3].map Event.toRow)] ∧
    (insertBatch (cfg 3) none (([record 1, record 2, record 3] ++ [record 4]).map okEvent)).batch =
      some ⟨1, [(record 4).toRow]⟩ ∧
    commits (insertBatch (cfg 3) none
      (([record 1, record 2, record 3] ++ [record 4]).map okEvent)).trace =
      [(0, [record 1, record 2, record 3].map Event.toRow)] := by
  have h := C1_exact_batch_one_commit (cfg 3) [record 1, record 2, record 3] (record 4)
    (by decide) (by decide) (by decide)
  obtain ⟨_, h2, _, _, _, rest, _, _, h6⟩ := h
  have h7 := h6 (by decide)
  exact ⟨h2, h7.2.1, h7.2.2.2⟩

theorem alternating_succ (n : Nat) :
    alternating (n + 1) = alternating n ++ [.prepared n, .sent n] := by
  simp [alternating, List.range_succ, List.flatMap_append]

theorem sentOf_alternating (n : Nat) : sentOf (alternating n) = List.range n := by
  induction n with
  | zero => rfl
  | succ n ih =>
    rw [alternating_succ, List.range_succ]
    simp [sentOf, List.filterMap_append] at ih ⊢
    exact ih

theorem sentHandles_eq_sentOf (tr : List Effect) : sentHandles tr = sentOf (sinkCalls tr) := by
  induction tr with
  | nil => rfl
  | cons e tr ih =>
    have h1 : sentHandles (e :: tr) = sentHandles [e] ++ sentHandles tr := by
      rw [← sentHandles_append]
      rfl
    have h2 : sinkCalls (e :: tr) = sinkCalls [e] ++ sinkCalls tr := by
      rw [← sinkCalls_append]
      rfl
    rw [h1, h2, ih]
    cases e with
    | prepareBatch res =>
      cases res <;> simp [sentHandles, commits, sinkCalls, sentOf]
    | _ => simp [sentHandles, commits, sinkCalls, sentOf]

theorem SinkInv_start (c : batchInserter) (p : Option Err) : SinkInv (start c p) := by
  cases p with
  | none =>
    refine ⟨fun _ b hb => ?_, 0, Or.inr ?_⟩
    · simp [start, prepare] at hb
      subst hb
      simp [start, prepare, sinkCalls, alternating]
    · simp [start, prepare, sinkCalls, alternating]
  | some e =>
    refine ⟨fun _ b hb => ?_, 0, Or.inl ?_⟩
    · simp [start, prepare] at hb
    · simp [start, prepare, sinkCalls, alternating]

theorem sinkCalls_snoc_other (tr : List Effect) (x : Effect) (hx : sinkCalls [x] = []) :
    sinkCalls (tr ++ [x]) = sinkCalls tr := by
  rw [sinkCalls_append, hx, List.append_nil]

theorem SinkInv_step (c : batchInserter) (w : Worker) (i : Select) (h : SinkInv w) :
    SinkInv (step c w i) := by
  obtain ⟨batch, counter, timer, prepared, trace, status⟩ := w
  obtain ⟨h1, n, h2⟩ := h
  cases status with
  | returned e => exact ⟨h1, n, h2⟩
  | panicked => exact ⟨h1, n, h2⟩
  | running =>
    cases batch with
    | none =>
      cases i with
      | timerC send prep =>
        refine ⟨fun hs => ?_, n, ?_⟩
        · simp [step, onTimer] at hs
        · simpa [step, onTimer, sinkCalls_append, sinkCalls] using h2
      | insertCh ev app send prep =>
        refine ⟨fun hs => ?_, n, ?_⟩
        · simp [step, onEvent] at hs
        · simpa [step, onEvent, sinkCalls_append, sinkCalls] using h2
    | some b =>
      obtain ⟨hc, hp⟩ := h1 rfl b rfl
      simp only at hc hp
      cases i with
      | timerC send prep =>
        cases send with
        | some e =>
          refine ⟨fun hs => ?_, b.handle + 1, Or.inl ?_⟩
          · simp [step, onTimer] at hs
          · simp [step, onTimer, sinkCalls_append, hc, alternating_succ]
            simp [sinkCalls]
        | none =>
          cases prep with
          | some e =>
            refine ⟨fun _ b2 hb2 => ?_, b.handle + 1, Or.inl ?_⟩
            · simp [step, onTimer, prepare] at hb2
            · simp [step, onTimer, prepare, sinkCalls_append, hc, alternating_succ]
              simp [sinkCalls]
          | none =>
            refine ⟨fun _ b2 hb2 => ?_, b.handle + 1, Or.inr ?_⟩
            · simp [step, onTimer, prepare] at hb2
              subst hb2
              simp [step, onTimer, prepare, sinkCalls_append, hc, alternating_succ, hp]
              simp [sinkCalls]
            · simp [step, onTimer, prepare, sinkCalls_append, hc, alternating_succ, hp]
              simp [sinkCalls]
      | insertCh ev app send prep =>
        cases app with
        | some e =>
          refine ⟨fun hs => ?_, b.handle, Or.inr ?_⟩
          · simp [step, onEvent] at hs
          · simp [step, onEvent, sinkCalls_append, hc]
            simp [sinkCalls]
        | none =>
          by_cases hfull : wrapInt (counter + 1) = c.batchSize
          · cases send with
            | some e =>
              refine ⟨fun hs => ?_, b.handle + 1, Or.inl ?_⟩
              · simp [step, onEvent, hfull] at hs
              · simp [step, onEvent, hfull, sinkCalls_append, hc, alternating_succ]
                simp [sinkCalls]
            | none =>
              cases prep with
              | some e =>
                refine ⟨fun _ b2 hb2 => ?_, b.handle + 1, Or.inl ?_⟩
                · simp [step, onEvent, hfull, prepare] at hb2
                · simp [step, onEvent, hfull, prepare, sinkCalls_append, hc, alternating_succ]
                  simp [sinkCalls]
              | none =>
                refine ⟨fun _ b2 hb2 => ?_, b.handle + 1, Or.inr ?_⟩
                · simp [step, onEvent, hfull, prepare] at hb2
                  subst hb2
                  simp [step, onEvent, hfull, prepare, sinkCalls_append, hc, alternating_succ, hp]
                  simp [sinkCalls]
                · simp [step, onEvent, hfull, prepare, sinkCalls_append, hc, alternating_succ, hp]
                  simp [sinkCalls]
          · refine ⟨fun _ b2 hb2 => ?_, b.handle, Or.inr ?_⟩
            · simp [step, onEvent, hfull] at hb2
              subst hb2
              simp [step, onEvent, hfull, sinkCalls_append, hc, hp]
              simp [sinkCalls]
            · simp [step, onEvent, hfull, sinkCalls_append, hc]
              simp [sinkCalls]

theorem SinkInv_foldl (c : batchInserter) (xs : List Select) (w : Worker) (h : SinkInv w) :
    SinkInv (xs.foldl (step c) w) := by
  induction xs generalizing w with
  | nil => exact h
  | cons x xs ih => exact ih _ (SinkInv_step c w x h)

theorem SinkInv_insertBatch (c : batchInserter) (p : Option Err) (xs : List Select) :
    SinkInv (insertBatch c p xs) :=
  SinkInv_foldl c xs _ (SinkInv_start c p)

/-- The handle of the batch a running worker holds has not been sent, and is
the one before the next the connection will hand out. -/
theorem current_batch_unsent (c : batchInserter) (p : Option Err) (xs : List Select) (b : Batch)
    (hrun : (insertBatch c p xs).status = .running)
    (hb : (insertBatch c p xs).batch = some b) :
    sentHandles (insertBatch c p xs).trace = List.range b.handle ∧
    (insertBatch c p xs).prepared = b.handle + 1 := by
  obtain ⟨h1, _⟩ := SinkInv_insertBatch c p xs
  obtain ⟨hc, hp⟩ := h1 hrun b hb
  refine ⟨?_, hp⟩
  rw [sentHandles_eq_sentOf, hc]
  have := sentOf_alternating b.handle
  simp [sentOf, List.filterMap_append] at this ⊢
  exact this

/-- C8: in every execution of the worker, whatever the inputs and the answers
of the sink, the successful `PrepareBatch` calls and the `batch.Send` calls
strictly alternate: prepare 0, send 0, prepare 1, send 1, ...; so a new batch
is obtained between any two commits, and no handle is sent twice. -/
theorem C8_no_double_commit (c : batchInserter) (p : Option Err) (inputs : List Select) :
    (∃ n, sinkCalls (insertBatch c p inputs).trace = alternating n ∨
      sinkCalls (insertBatch c p inputs).trace = alternating n ++ [.prepared n]) ∧
    (sentHandles (insertBatch c p inputs).trace).Nodup := by
  obtain ⟨_, n, h2⟩ := SinkInv_insertBatch c p inputs
  refine ⟨⟨n, h2⟩, ?_⟩
  rw [sentHandles_eq_sentOf]
  have hr := sentOf_alternating n
  rcases h2 with h | h
  · rw [h, hr]
    exact List.nodup_range n
  · rw [h]
    have : sentOf (alternating n ++ [.prepared n]) = List.range n := by
      simp [sentOf, List.filterMap_append] at hr ⊢
      exact hr
    rw [this]
    exact List.nodup_range n

theorem records_append (a b : List Select) : records (a ++ b) = records a ++ records b := by
  simp [records]

theorem OrderInv_step (c : batchInserter) (w : Worker) (rs : List Event) (i : Select)
    (h : OrderInv w rs) (hi : i.noSinkError = true) :
    OrderInv (step c w i) (rs ++ records [i]) := by
  obtain ⟨batch, counter, timer, prepared, trace, status⟩ := w
  obtain ⟨hrun, b, hb, h1, h2, h3⟩ := h
  simp only at hrun hb h1 h2 h3
  subst hrun hb
  simp only [committed, commits, dequeued, appended] at h1 h2 h3
  cases i with
  | timerC send prep =>
    simp [Select.noSinkError] at hi
    obtain ⟨hs, hp⟩ := hi
    subst hs hp
    refine ⟨by simp [step, onTimer], ⟨prepared, []⟩, by simp [step, onTimer, prepare], ?_, ?_, ?_⟩
    · simpa [step, onTimer, prepare, committed, commits, records] using h1
    · simpa [step, onTimer, prepare, dequeued, records] using h2
    · simpa [step, onTimer, prepare, appended, records] using h3
  | insertCh ev app send prep =>
    simp [Select.noSinkError] at hi
    obtain ⟨⟨ha, hs⟩, hp⟩ := hi
    subst ha hs hp
    by_cases hfull : wrapInt (counter + 1) = c.batchSize
    · refine ⟨by simp [step, onEvent, hfull], ⟨prepared, []⟩,
        by simp [step, onEvent, hfull, prepare], ?_, ?_, ?_⟩
      · simp [step, onEvent, hfull, prepare, committed, commits, records, ← h1]
      · simpa [step, onEvent, hfull, prepare, dequeued, records] using h2
      · simpa [step, onEvent, hfull, prepare, appended, records] using h3
    · refine ⟨by simp [step, onEvent, hfull], ⟨b.handle, b.rows ++ [ev.toRow]⟩,
        by simp [step, onEvent, hfull], ?_, ?_, ?_⟩
      · simp [step, onEvent, hfull, committed, commits, records, ← h1]
      · simpa [step, onEvent, hfull, dequeued, records] using h2
      · simpa [step, onEvent, hfull, appended, records] using h3

theorem OrderInv_insertBatch (c : batchInserter) (inputs : List Select)
    (hok : ∀ i ∈ inputs, i.noSinkError = true) :
    OrderInv (insertBatch c none inputs) (records inputs) := by
  induction inputs using List.reverseRecOn with
  | nil =>
    refine ⟨rfl, ⟨0, []⟩, rfl, ?_, ?_, ?_⟩ <;>
      simp [insertBatch, start, prepare, committed, commits, dequeued, appended, records]
  | append_singleton xs x ih =>
    rw [insertBatch_snoc, records_append]
    exact OrderInv_step c _ _ x (ih fun i hi => hok i (by simp [hi])) (hok x (by simp))

/-- C5: for every interleaving of record arrivals and deadline firings with
no sink error, the worker is still in its loop with a batch, the rows of the
committed batches in commit order followed by the rows of the current batch
are the rows of the dequeued records in dequeue order, the dequeued records
are the delivered ones, and each is appended exactly once, in order. -/
theorem C5_order_preserved (c : batchInserter) (inputs : List Select)
    (hok : ∀ i ∈ inputs, i.noSinkError = true) :
    (insertBatch c none inputs).status = .running ∧
    ∃ b, (insertBatch c none inputs).batch = some b ∧
      (committed (insertBatch c none inputs).trace).flatten ++ b.rows =
        (dequeued (insertBatch c none inputs).trace).map Event.toRow ∧
      dequeued (insertBatch c none inputs).trace = records inputs ∧
      appended (insertBatch c none inputs).trace =
        (dequeued (insertBatch c none inputs).trace).map Event.toRow := by
  obtain ⟨hrun, b, hb, h1, h2, h3⟩ := OrderInv_insertBatch c inputs hok
  exact ⟨hrun, b, hb, by rw [h2]; exact h1, h2, by rw [h2]; exact h3⟩

/-- Witness of C5: batch size 2, a record, a deadline, then three records. -/
theorem C5_order_preserved_witness :
    (insertBatch (cfg 2) none
      [okEvent (record 1), okTick, okEvent (record 2), okEvent (record 3),
        okEvent (record 4)]).status = .running ∧
    ∃ b, (insertBatch (cfg 2) none
      [okEvent (record 1), okTick, okEvent (record 2), okEvent (record 3),
        okEvent (record 4)]).batch = some b ∧
      (committed (insertBatch (cfg 2) none
        [okEvent (record 1), okTick, okEvent (record 2), okEvent (record 3),
          okEvent (record 4)]).trace).flatten ++ b.rows =
        (dequeued (insertBatch (cfg 2) none
          [okEvent (record 1), okTick, okEvent (record 2), okEvent (record 3),
            okEvent (record 4)]).trace).map Event.toRow ∧
      dequeued (insertBatch (cfg 2) none
        [okEvent (record 1), okTick, okEvent (record 2), okEvent (record 3),
          okEvent (record 4)]).trace =
        records [okEvent (record 1), okTick, okEvent (record 2), okEvent (record 3),
          okEvent (record 4)] ∧
      appended (insertBatch (cfg 2) none
        [okEvent (record 1), okTick, okEvent (record 2), okEvent (record 3),
          okEvent (record 4)]).trace =
        (dequeued (insertBatch (cfg 2) none
          [okEvent (record 1), okTick, okEvent (record 2), okEvent (record 3),
            okEvent (record 4)]).trace).map Event.toRow :=
  C5_order_preserved (cfg 2)
    [okEvent (record 1), okTick, okEvent (record 2), okEvent (record 3), okEvent (record 4)]
    (by decide)

/-- C3: when the deadline fires on a running worker whose current batch `b`
holds any number k of rows (k = 0 included) and `batch.Send` succeeds, the
worker calls `batch.Send` exactly once, on that batch with exactly those rows,
a batch not sent before; it then calls `prepare` and resets the timer to
`batchTTL`, and stays in its loop; when `prepare` succeeds the new batch is
empty and has a new handle. -/
theorem C3_deadline_commit (c : batchInserter) (prep0 : Option Err) (inputs : List Select)
    (b : Batch) (p : Option Err)
    (hrun : (insertBatch c prep0 inputs).status = .running)
    (hb : (insertBatch c prep0 inputs).batch = some b) :
    (insertBatch c prep0 (inputs ++ [.timerC none p])).trace =
      (insertBatch c prep0 inputs).trace ++ [.timerFired, .send b.handle b.rows none] ++
        (prepare (b.handle + 1) p).effects ++ [.timerReset c.batchTTL] ∧
    commits (insertBatch c prep0 (inputs ++ [.timerC none p])).trace =
      commits (insertBatch c prep0 inputs).trace ++ [(b.handle, b.rows)] ∧
    b.handle ∉ sentHandles (insertBatch c prep0 inputs).trace ∧
    (insertBatch c prep0 (inputs ++ [.timerC none p])).timer = c.batchTTL ∧
    (insertBatch c prep0 (inputs ++ [.timerC none p])).status = .running ∧
    (p = none →
      (insertBatch c prep0 (inputs ++ [.timerC none p])).batch = some ⟨b.handle + 1, []⟩) := by
  obtain ⟨hsent, hprep⟩ := current_batch_unsent c prep0 inputs b hrun hb
  rw [insertBatch_snoc]
  generalize insertBatch c prep0 inputs = w at hrun hb hsent hprep
  obtain ⟨batch, counter, timer, prepared, trace, status⟩ := w
  simp only at hrun hb hsent hprep
  subst hrun hb hprep
  refine ⟨?_, ?_, ?_, ?_, ?_, ?_⟩
  · simp [step, onTimer]
  · cases p <;> simp [step, onTimer, prepare, commits]
  · rw [hsent]
    simp
  · simp [step, onTimer]
  · simp [step, onTimer]
  · intro hp
    subst hp
    simp [step, onTimer, prepare]

/-- Witness of C3 (scenario B): batch size 100, two records, then the deadline. -/
theorem C3_deadline_commit_witness :
    commits (insertBatch (cfg 100) none
      ([okEvent (record 1), okEvent (record 2)] ++ [.timerC none none])).trace =
      commits (insertBatch (cfg 100) none [okEvent (record 1), okEvent (record 2)]).trace ++
        [(0, [(record 1).toRow, (record 2).toRow])] ∧
    (insertBatch (cfg 100) none
      ([okEvent (record 1), okEvent (record 2)] ++ [.timerC none none])).timer =
      (cfg 100).batchTTL :=
  have h := C3_deadline_commit (cfg 100) none [okEvent (record 1), okEvent (record 2)]
    ⟨0, [(record 1).toRow, (record 2).toRow]⟩ none (by decide) (by decide)
  ⟨h.2.1, h.2.2.2.1⟩

/-- C6: let the worker be in its loop with batch `b` after the inputs `pre`.
If the next `batch.Append` fails with `e`, or the deadline fires and
`batch.Send` fails with `e`, or the append brings the counter to `batchSize`
and `batch.Send` fails with `e`, then whatever inputs `post` are offered
afterwards the worker has returned `e` and its trace ends with the failing
call (followed on the deadline path by the log line): nothing is received,
appended, sent or prepared after it.  After a failed append the batch `b` has
never been sent. -/
theorem C6_sink_error_aborts (c : batchInserter) (prep0 : Option Err) (pre post : List Select)
    (b : Batch)
    (hrun : (insertBatch c prep0 pre).status = .running)
    (hb : (insertBatch c prep0 pre).batch = some b) :
    (∀ (ev : Event) (e : Err) (s p : Option Err),
      (insertBatch c prep0 (pre ++ .insertCh ev (some e) s p :: post)).status = .returned e ∧
      (insertBatch c prep0 (pre ++ .insertCh ev (some e) s p :: post)).trace =
        (insertBatch c prep0 pre).trace ++ [.recv ev, .append b.handle ev.toRow (some e)] ∧
      b.handle ∉
        sentHandles (insertBatch c prep0 (pre ++ .insertCh ev (some e) s p :: post)).trace) ∧
    (∀ (e : Err) (p : Option Err),
      (insertBatch c prep0 (pre ++ .timerC (some e) p :: post)).status = .returned e ∧
      (insertBatch c prep0 (pre ++ .timerC (some e) p :: post)).trace =
        (insertBatch c prep0 pre).trace ++
          [.timerFired, .send b.handle b.rows (some e), .logErr e]) ∧
    (∀ (ev : Event) (e : Err) (p : Option Err),
      wrapInt ((insertBatch c prep0 pre).counter + 1) = c.batchSize →
      (insertBatch c prep0 (pre ++ .insertCh ev none (some e) p :: post)).status = .returned e ∧
      (insertBatch c prep0 (pre ++ .insertCh ev none (some e) p :: post)).trace =
        (insertBatch c prep0 pre).trace ++
          [.recv ev, .append b.handle ev.toRow none,
            .send b.handle (b.rows ++ [ev.toRow]) (some e)]) := by
  obtain ⟨hsent, _⟩ := current_batch_unsent c prep0 pre b hrun hb
  simp only [insertBatch_append, List.foldl_cons]
  generalize insertBatch c prep0 pre = w at hrun hb hsent
  obtain ⟨batch, counter, timer, prepared, trace, status⟩ := w
  simp only at hrun hb hsent
  subst hrun hb
  refine ⟨fun ev e s p => ?_, fun e p => ?_, fun ev e p hfull => ?_⟩
  · have hst : step c ⟨some b, counter, timer, prepared, trace, .running⟩
        (.insertCh ev (some e) s p) =
        ⟨some b, counter, timer, prepared,
          trace ++ [.recv ev, .append b.handle ev.toRow (some e)], .returned e⟩ := by
      simp [step, onEvent]
    rw [hst, foldl_step_stopped c _ (by simp)]
    refine ⟨rfl, rfl, ?_⟩
    show b.handle ∉ sentHandles (trace ++ [.recv ev, .append b.handle ev.toRow (some e)])
    rw [sentHandles_append, hsent]
    simp [sentHandles, commits]
  · have hst : step c ⟨some b, counter, timer, prepared, trace, .running⟩
        (.timerC (some e) p) =
        ⟨some b, counter, timer, prepared,
          trace ++ [.timerFired, .send b.handle b.rows (some e), .logErr e], .returned e⟩ := by
      simp [step, onTimer]
    rw [hst, foldl_step_stopped c _ (by simp)]
    exact ⟨rfl, rfl⟩
  · simp only at hfull
    have hst : step c ⟨some b, counter, timer, prepared, trace, .running⟩
        (.insertCh ev none (some e) p) =
        ⟨some ⟨b.handle, b.rows ++ [ev.toRow]⟩, 0, timer, prepared,
          trace ++ [.recv ev, .append b.handle ev.toRow none,
            .send b.handle (b.rows ++ [ev.toRow]) (some e)], .returned e⟩ := by
      simp [step, onEvent, hfull]
    rw [hst, foldl_step_stopped c _ (by simp)]
    exact ⟨rfl, rfl⟩

/-- Witness of C6: batch size 2, one record pending, then each of the three
failures, with further inputs offered afterwards. -/
theorem C6_sink_error_aborts_witness :
    (insertBatch (cfg 2) none ([okEvent (record 1)] ++
      .insertCh (record 2) (some "append failed") none none ::
        [okEvent (record 3), okTick])).status = .returned "append failed" ∧
    (insertBatch (cfg 2) none ([okEvent (record 1)] ++
      .timerC (some "send failed") none :: [okEvent (record 3), okTick])).trace =
      (insertBatch (cfg 2) none [okEvent (record 1)]).trace ++
        [.timerFired, .send 0 [(record 1).toRow] (some "send failed"),
          .logErr "send failed"] ∧
    (insertBatch (cfg 2) none ([okEvent (record 1)] ++
      .insertCh (record 2) none (some "send failed") none ::
        [okEvent (record 3), okTick])).status = .returned "send failed" :=
  have h := C6_sink_error_aborts (cfg 2) none [okEvent (record 1)] [okEvent (record 3), okTick]
    ⟨0, [(record 1).toRow]⟩ (by decide) (by decide)
  ⟨(h.1 (record 2) "append failed" none none).1, (h.2.1 "send failed" none).2,
    (h.2.2 (record 2) "send failed" none (by decide)).1⟩

/-- C2 (the code differs): with batch size 3, after one record and a
deadline-triggered commit the counter is still 1, not 0, although a new empty
batch is in use; the next size-triggered commit then comes after only two
further records and holds two rows. -/
theorem C2_deadline_keeps_counter :
    (insertBatch (cfg 3) none [okEvent (record 1), okTick]).counter = 1 ∧
    (insertBatch (cfg 3) none [okEvent (record 1), okTick]).batch = some ⟨1, []⟩ ∧
    commits (insertBatch (cfg 3) none
      [okEvent (record 1), okTick, okEvent (record 2), okEvent (record 3)]).trace =
      [(0, [(record 1).toRow]), (1, [(record 2).toRow, (record 3).toRow])] := by
  decide

/-- C7 (the code differs): a failed `batch.Append` and a failed size-triggered
`batch.Send` make the worker return the error with nothing written to the
log; only the deadline-triggered `batch.Send` failure is logged. -/
theorem C7_abort_not_logged :
    (insertBatch (cfg 3) none
      [.insertCh (record 1) (some "append failed") none none]).status =
      .returned "append failed" ∧
    logged (insertBatch (cfg 3) none
      [.insertCh (record 1) (some "append failed") none none]).trace = [] ∧
    (insertBatch (cfg 1) none
      [.insertCh (record 1) none (some "send failed") none]).status =
      .returned "send failed" ∧
    logged (insertBatch (cfg 1) none
      [.insertCh (record 1) none (some "send failed") none]).trace = [] ∧
    logged (insertBatch (cfg 3) none [.timerC (some "send failed") none]).trace =
      ["send failed"] := by
  decide

/-- C10 (the code differs): when `prepare` fails, at worker start or right
after a flush, the worker keeps the nil batch and the next record or deadline
makes it call `batch.Append` or `batch.Send` on it, which panics. -/
theorem C10_nil_batch_used :
    (insertBatch (cfg 3) (some "no connection") [okEvent (record 1)]).status = .panicked ∧
    (insertBatch (cfg 3) (some "no connection") [okTick]).status = .panicked ∧
    (insertBatch (cfg 1) none
      [.insertCh (record 1) none none (some "no connection"),
        okEvent (record 2)]).status = .panicked ∧
    (insertBatch (cfg 3) none
      [.timerC none (some "no connection"), okTick]).status = .panicked := by
  decide


theorem IndexByte_none (buf : List Nat) (c : Nat) (h : IndexByte buf c = none) : c ∉ buf := by
  induction buf with
  | nil => simp
  | cons x xs ih =>
    unfold IndexByte at h
    split_ifs at h with hx
    simp at h
    simp
    exact ⟨fun hc => hx hc.symm, ih h⟩

theorem IndexByte_some (buf : List Nat) (c i : Nat) (h : IndexByte buf c = some i) :
    ∃ l r, buf = l ++ c :: r ∧ c ∉ l ∧ l.length = i := by
  induction buf generalizing i with
  | nil => simp [IndexByte] at h
  | cons x xs ih =>
    unfold IndexByte at h
    split_ifs at h with hx
    · simp at h
      subst h hx
      exact ⟨[], xs, rfl, by simp, rfl⟩
    · simp at h
      obtain ⟨j, hj, hji⟩ := h
      obtain ⟨l, r, hl, hc, hlen⟩ := ih j hj
      refine ⟨x :: l, r, by simp [hl], ?_, by simp [hlen, hji]⟩
      simp
      exact ⟨fun hcx => hx hcx.symm, hc⟩

theorem segments_eq_nil (b : List Nat) : segments b = [] ↔ b = [] := by
  cases b with
  | nil => simp [segments]
  | cons x xs =>
    simp only [segments]
    split_ifs
    · simp
    · split <;> simp

theorem segments_no_newline (l : List Nat) (h : 10 ∉ l) :
    segments l = if l = [] then [] else [l] := by
  induction l with
  | nil => simp [segments]
  | cons x xs ih =>
    simp at h
    have hx : ¬ x = 10 := fun hx => h.1 hx.symm
    have ih2 := ih h.2
    simp only [segments, hx, if_false]
    by_cases hxs : xs = []
    · subst hxs
      simp [segments]
    · simp [hxs] at ih2
      simp [ih2]

theorem segments_line (l r : List Nat) (h : 10 ∉ l) :
    segments (l ++ 10 :: r) = l :: segments r := by
  induction l with
  | nil => simp [segments]
  | cons x xs ih =>
    simp at h
    have hx : ¬ x = 10 := fun hx => h.1 hx.symm
    have ih2 := ih h.2
    show segments (x :: (xs ++ 10 :: r)) = (x :: xs) :: segments r
    simp only [segments, hx, if_false, ih2]

theorem readLoop_eq (fuel : Nat) (buf : List Nat) (events : List (List Nat))
    (h : buf.length < fuel) :
    readLoop fuel buf events = some (.ok (events ++ segments buf)) := by
  induction fuel generalizing buf events with
  | zero => omega
  | succ fuel ih =>
    unfold readLoop
    cases hi : IndexByte buf 10 with
    | none =>
      have hno := IndexByte_none buf 10 hi
      have hseg := segments_no_newline buf hno
      by_cases hb : buf = []
      · subst hb
        simp [ReadBytes, IndexByte, segments]
      · simp [ReadBytes, hi, hb, hseg]
    | some i =>
      obtain ⟨l, r, hbuf, hno, hlen⟩ := IndexByte_some buf 10 i hi
      subst hbuf
      have htake : (l ++ 10 :: r).take (i + 1) = l ++ [10] := by
        have : l ++ 10 :: r = (l ++ [10]) ++ r := by simp
        rw [this, List.take_left']
        simp [hlen]
      have hdrop : (l ++ 10 :: r).drop (i + 1) = r := by
        have : l ++ 10 :: r = (l ++ [10]) ++ r := by simp
        rw [this, List.drop_left']
        simp [hlen]
      simp only [ReadBytes, hi, htake, hdrop, Option.getD_some, List.dropLast_concat]
      rw [ih r _ (by simp at h; omega), segments_line l r hno]
      simp

theorem segments_mem_no_newline (b : List Nat) : ∀ p ∈ segments b, 10 ∉ p := by
  induction b with
  | nil => simp [segments]
  | cons x xs ih =>
    intro p hp
    simp only [segments] at hp
    split_ifs at hp with hx
    · rcases List.mem_cons.1 hp with h | h
      · subst h
        simp
      · exact ih p h
    · split at hp
      · simp at hp
        subst hp
        simp
        exact fun h => hx h.symm
      · next l ls hseg =>
        rw [hseg] at ih
        rcases List.mem_cons.1 hp with h | h
        · subst h
          have hl := ih l (by simp)
          simp
          exact ⟨fun h => hx h.symm, hl⟩
        · exact ih p (by simp [h])

theorem intercalate_cons_head (sep : List Nat) (x : Nat) (l : List Nat) (ls : List (List Nat)) :
    List.intercalate sep ((x :: l) :: ls) = x :: List.intercalate sep (l :: ls) := by
  cases ls <;> simp [List.intercalate]

theorem join_segments_cons (x y : Nat) (ys : List Nat) :
    List.intercalate [10] (segments (x :: y :: ys)) =
      x :: List.intercalate [10] (segments (y :: ys)) := by
  have hne : segments (y :: ys) ≠ [] := by
    intro h
    have := (segments_eq_nil (y :: ys)).1 h
    simp at this
  obtain ⟨l, ls, hseg⟩ := List.exists_cons_of_ne_nil hne
  by_cases hx : x = 10
  · subst hx
    have : segments (10 :: y :: ys) = [] :: segments (y :: ys) := by
      simp [segments]
    rw [this, hseg]
    simp [List.intercalate]
  · have : segments (x :: y :: ys) = (x :: l) :: ls := by
      rw [segments]
      simp only [hx, if_false]
      rw [hseg]
    rw [this, hseg, intercalate_cons_head]

theorem join_segments (b : List Nat) :
    (b.getLast? = some 10 → List.intercalate [10] (segments b) ++ [10] = b) ∧
    (b.getLast? ≠ some 10 → List.intercalate [10] (segments b) = b) := by
  induction b with
  | nil => simp [segments, List.intercalate]
  | cons x xs ih =>
    cases xs with
    | nil =>
      by_cases hx : x = 10
      · subst hx
        simp [segments, List.intercalate]
      · simp [segments, List.intercalate, hx]
    | cons y ys =>
      rw [join_segments_cons, List.getLast?_cons_cons]
      refine ⟨fun h => ?_, fun h => ?_⟩
      · rw [List.cons_append, ih.1 h]
      · rw [ih.2 h]

theorem segments_last (x seg : List Nat) (hne : seg ≠ []) (hno : 10 ∉ seg) :
    ∃ init, init ≠ [] ∧ segments (x ++ 10 :: seg) = init ++ [seg] := by
  induction x with
  | nil =>
    refine ⟨[[]], by simp, ?_⟩
    have := segments_no_newline seg hno
    simp [hne] at this
    simp [segments, this]
  | cons a x ih =>
    obtain ⟨init, hinit, hseg⟩ := ih
    obtain ⟨i0, is, hi⟩ := List.exists_cons_of_ne_nil hinit
    subst hi
    by_cases ha : a = 10
    · subst ha
      refine ⟨[] :: i0 :: is, by simp, ?_⟩
      show segments (10 :: (x ++ 10 :: seg)) = _
      simp [segments, hseg]
    · refine ⟨(a :: i0) :: is, by simp, ?_⟩
      show segments (a :: (x ++ 10 :: seg)) = _
      rw [segments]
      simp only [ha, if_false]
      rw [hseg]
      simp

/-- C9: for every body read without error, `readBody` returns (within its
iteration bound) a list of parts such that: no part contains the newline byte
10; the parts joined with a newline are the body without its one trailing
newline when it has one, and the body itself otherwise; when the body ends in
a non-empty segment with no newline after it, that segment is the last part;
and the empty body gives the empty list. -/
theorem C9_readBody_splits (body : List Nat) :
    ∃ parts, readBody (.ok body) = some (.ok parts) ∧
      (∀ p ∈ parts, 10 ∉ p) ∧
      (body.getLast? = some 10 → List.intercalate [10] parts ++ [10] = body) ∧
      (body.getLast? ≠ some 10 → List.intercalate [10] parts = body) ∧
      (∀ pre seg, body = pre ++ seg → seg ≠ [] → 10 ∉ seg →
        (pre = [] ∨ ∃ q, pre = q ++ [10]) → ∃ init, parts = init ++ [seg]) ∧
      (body = [] → parts = []) := by
  refine ⟨segments body, ?_, segments_mem_no_newline body, (join_segments body).1,
    (join_segments body).2, ?_, ?_⟩
  · simp only [readBody]
    rw [readLoop_eq _ _ _ (by omega)]
    simp
  · intro pre seg hbody hne hno hpre
    subst hbody
    rcases hpre with h | ⟨q, h⟩
    · subst h
      refine ⟨[], ?_⟩
      have := segments_no_newline seg hno
      simp [hne] at this
      simp [this]
    · subst h
      obtain ⟨init, _, hseg⟩ := segments_last q seg hne hno
      exact ⟨init, by simpa using hseg⟩
  · intro h
    subst h
    rfl

end EventsSaver
